import Mathlib

/-!
Verification of the serverless-plugin-parent configuration merge plugin
(src/index.js) against its natural-language specification.

The embedding models the parsed YAML documents that the plugin manipulates
as a JSON-like value type (mappings, sequences and scalars), the lodash
merge primitive used by the plugin, the merge routine
mergeParentConfigurationIntoService, the parent locator
getParentConfigurationRelativePath (with the filesystem abstracted to
read-only probe oracles), and the printEffectiveConfig output whitelist.
-/

set_option autoImplicit false

/-! ### Data model: structured configuration documents -/

mutual
/-- A parsed structured-document value: scalar, sequence or mapping.
Mappings are ordered association lists, mirroring JavaScript object key
order; JavaScript objects cannot hold duplicate keys, which the
well-formedness predicate below captures. -/
inductive JVal where
  | null : JVal
  | bool : Bool → JVal
  | num : Int → JVal
  | str : String → JVal
  | arr : JList → JVal
  | obj : JFields → JVal
deriving DecidableEq
/-- A sequence of values. -/
inductive JList where
  | nil : JList
  | cons : JVal → JList → JList
deriving DecidableEq
/-- An ordered list of key-value fields of a mapping. -/
inductive JFields where
  | nil : JFields
  | cons : String → JVal → JFields → JFields
deriving DecidableEq
end

/-- Build a sequence value from a Lean list, for readable literals. -/
def jarr : List JVal → JVal :=
  fun xs => .arr (xs.foldr .cons .nil)

/-- Build a mapping value from a Lean list of pairs, for readable
literals. -/
def jobj : List (String × JVal) → JVal :=
  fun fs => .obj (fs.foldr (fun p tl => .cons p.1 p.2 tl) .nil)

/-- Whether a field list has a binding for key k. -/
def hasKeyF (k : String) : JFields → Bool
  | .nil => false
  | .cons k2 _ tl => k2 == k || hasKeyF k tl

/-- First binding for key k, mirroring JavaScript property lookup. -/
def lookupF (k : String) : JFields → Option JVal
  | .nil => none
  | .cons k2 v tl => if k2 = k then some v else lookupF k tl

/-- Replace the value of the first binding for key k, keeping its position;
this is what a JavaScript property assignment to an existing key does. -/
def replaceKey (k : String) (w : JVal) : JFields → JFields
  | .nil => .nil
  | .cons k2 v tl => if k2 = k then .cons k2 w tl else .cons k2 v (replaceKey k w tl)

/-- Append a new binding at the end, as a JavaScript assignment to a fresh
key appends it in property order. -/
def appendKey (k : String) (w : JVal) : JFields → JFields
  | .nil => .cons k w .nil
  | .cons k2 v tl => .cons k2 v (appendKey k w tl)

/-- Property access a[k] in JavaScript: a binding of a mapping, and
undefined (none) on every non-mapping value. -/
def jsField (k : String) : JVal → Option JVal
  | .obj fs => lookupF k fs
  | _ => none

/-- Walk a chain of property accesses, undefined as soon as a step is not
a mapping or lacks the key. -/
def getPath : JVal → List String → Option JVal
  | v, [] => some v
  | v, k :: ks =>
    match jsField k v with
    | some w => getPath w ks
    | none => none

/-- A value that is neither a mapping nor a sequence. -/
def isScalar : JVal → Bool
  | .obj _ => false
  | .arr _ => false
  | _ => true

/-- JavaScript truthiness of a value. -/
def jsTruthy : JVal → Bool
  | .null => false
  | .bool b => b
  | .num n => n != 0
  | .str s => s != ""
  | .arr _ => true
  | .obj _ => true

/-- Length of a sequence. -/
def jlen : JList → Nat
  | .nil => 0
  | .cons _ tl => jlen tl + 1

/-- Number of fields of a mapping. -/
def flen : JFields → Nat
  | .nil => 0
  | .cons _ _ tl => flen tl + 1

/-- Element of a sequence at an index, if in range. -/
def jget : JList → Nat → Option JVal
  | .nil, _ => none
  | .cons v _, 0 => some v
  | .cons _ tl, n + 1 => jget tl n

/-- Result of Object.keys(v).length in JavaScript: own enumerable keys of
an object, indices of an array, character positions of a string, and no
keys at all on the remaining primitives. -/
def jsKeyCount : JVal → Nat
  | .obj fs => flen fs
  | .arr xs => jlen xs
  | .str s => s.length
  | _ => 0

/-! ### The lodash merge primitive

The plugin merges documents with the lodash function underscore.merge.
Its documented semantics on JSON-representable data: source keys are
walked in order; when both sides hold a mapping the merge recurses; when
both sides hold a sequence the merge recurses index-wise, keeping
destination elements beyond the source length; otherwise the source value
replaces the destination value (sources are deep-cloned, which on pure
values is the identity). Non-index properties that lodash can attach to
arrays when a mapping is merged over an array are outside the
JSON-representable fragment and are modeled as the source value winning. -/

mutual
/-- The lodash merge of a source document (second argument) over a
destination document (first argument). -/
def lodashMerge : JVal → JVal → JVal
  | .obj d, .obj s => .obj (mergeFields d s)
  | .arr d, .arr s => .arr (mergeElems d s)
  | _, s => s

/-- Merge the source fields, in order, into the destination field list:
an existing key is updated in place via a recursive merge, a fresh key is
appended. -/
def mergeFields : JFields → JFields → JFields
  | d, .nil => d
  | d, .cons k sv rest =>
    match lookupF k d with
    | some dv => mergeFields (replaceKey k (lodashMerge dv sv) d) rest
    | none => mergeFields (appendKey k sv d) rest

/-- Index-wise merge of sequences: shared indices merge recursively,
destination elements beyond the source length are kept, source elements
beyond the destination length are appended. -/
def mergeElems : JList → JList → JList
  | d, .nil => d
  | .nil, s => s
  | .cons dv dtl, .cons sv stl => .cons (lodashMerge dv sv) (mergeElems dtl stl)
end

/-! ### Well-formedness

JavaScript objects cannot carry duplicate keys, so every document coming
from the YAML loader or the host satisfies this predicate. Functions do
not require it; theorems assume it where key uniqueness matters. -/

mutual
/-- No mapping anywhere in the value has duplicate keys. -/
def wfVal : JVal → Bool
  | .arr xs => wfList xs
  | .obj fs => wfFields fs
  | _ => true
/-- Well-formedness of every element of a sequence. -/
def wfList : JList → Bool
  | .nil => true
  | .cons v tl => wfVal v && wfList tl
/-- Distinct keys at this level and well-formed field values. -/
def wfFields : JFields → Bool
  | .nil => true
  | .cons k v tl => !hasKeyF k tl && wfVal v && wfFields tl
end

/-! ### The merge routine of the plugin

Model of mergeParentConfigurationIntoService (src/index.js lines 99-135),
given the already-loaded parent document. The statement order of the
source is kept: clone the pristine child, merge the parent over the
child, only then read the override flag from the (already merged)
document, merge the parent a second time, and if the flag is disabled
merge the saved pristine child back over the result. The expression
this.serverless.service or-else the empty object is modeled by the
document itself, since the host always supplies a document. -/

/-- Lines 111-118: the direction flag is true unless
custom.parent.overwriteServiceConfig of the given document is exactly the
boolean false (strict equality in the source). In the source the check
crashes when custom is null; a null custom is modeled as the default
true. -/
def overwriteFlagOf (service : JVal) : Bool :=
  match getPath service ["custom", "parent", "overwriteServiceConfig"] with
  | some (.bool false) => false
  | _ => true

/-- Lines 99-127 of src/index.js, after the parent document has been
located and loaded: the effective document that replaces the service
configuration of the child. -/
def mergeParentConfigurationIntoService (child parent : JVal) : JVal :=
  let userServiceConfig := lodashMerge (JVal.obj JFields.nil) child
  let s1 := lodashMerge child parent
  let flag := overwriteFlagOf s1
  let s2 := lodashMerge s1 parent
  if flag then s2 else lodashMerge s2 userServiceConfig

/-! ### The parent locator

Model of getParentConfigurationRelativePath (src/index.js lines 142-177).
The filesystem is abstracted to two read-only oracles indexed by the
number of directory levels ascended from the service directory (level 1
is the immediate parent directory): whether a serverless.yml exists
there, and whether the canonical (symlink-resolved) path of that
directory equals the home directory of the current user. -/

/-- Whether the pattern is an initial segment of the character list. -/
def leadsWith : List Char → List Char → Bool
  | [], _ => true
  | _ :: _, [] => false
  | a :: as, b :: bs => a == b && leadsWith as bs

/-- Whether the pattern occurs contiguously anywhere in the character
list; String.indexOf in JavaScript is nonnegative exactly in this case. -/
def occursIn (pat : List Char) : List Char → Bool
  | [] => pat.isEmpty
  | c :: tl => leadsWith pat (c :: tl) || occursIn pat tl

/-- Read-only filesystem probes available to auto-discovery. -/
structure FsEnv where
  existsAt : Nat → Bool
  isHomeAt : Nat → Bool

/-- The accumulated relative path after ascending k levels, as built by
path.join: two dots, then slash two dots per further level. -/
def relPath : Nat → String
  | 0 => ""
  | 1 => ".."
  | k + 2 => relPath (k + 1) ++ "/.."

/-- Lines 147-154: the explicit custom.parent.path of the child document,
when the truthiness-checked chain reaches a nonempty string. -/
def explicitPathOf (service : JVal) : Option String :=
  match jsField "custom" service with
  | some cu =>
    if jsTruthy cu then
      match jsField "parent" cu with
      | some pa =>
        if jsTruthy pa then
          match jsField "path" pa with
          | some (.str s) => if s ≠ "" then some s else none
          | _ => none
        else none
      | none => none
    else none
  | none => none

/-- Lines 156-160: configured maxLevels, defaulting to 3 when the chain
is not reachable or the value is falsy (JavaScript or-else). -/
def maxLevelsOf (service : JVal) : Int :=
  match jsField "custom" service with
  | some cu =>
    if jsTruthy cu then
      match jsField "parent" cu with
      | some pa =>
        if jsTruthy pa then
          match jsField "maxLevels" pa with
          | some (.num m) => if m ≠ 0 then m else 3
          | _ => 3
        else 3
      | none => 3
    else 3
  | none => 3

/-- Lines 164-170: the upward search loop. Starting at level k it keeps
ascending while serverless.yml is absent at the current level, the
current level is not the home directory, and the length of the
accumulated relative path is below the bound (maxLevels minus one, times
three). The fuel argument only serves termination; with enough fuel the
loop always exits through its own condition, which the lemma
searchFrom_exits below establishes. -/
def searchFrom (env : FsEnv) (bound : Int) : Nat → Nat → Nat
  | 0, k => k
  | fuel + 1, k =>
    if env.existsAt k = false ∧ env.isHomeAt k = false ∧
        ((relPath k).length : Int) < bound then
      searchFrom env bound fuel (k + 1)
    else k

/-- The level at which the discovery loop of lines 164-170 stops, started
at the immediate parent directory (level 1). -/
def discoveredLevel (service : JVal) (env : FsEnv) : Nat :=
  let bound : Int := (maxLevelsOf service - 1) * 3
  searchFrom env bound (bound.toNat + 1) 1

/-- Lines 142-177: the full locator. An explicit custom.parent.path is
returned directly, with serverless.yml appended when the path does not
contain the substring dot-y-m-l (indexOf below zero in the source);
otherwise auto-discovery runs and either returns the found relative path
or fails. -/
def getParentConfigurationRelativePath (service : JVal) (env : FsEnv) :
    Except String String :=
  match explicitPathOf service with
  | some s =>
    if occursIn ".yml".toList s.toList = false then
      .ok (s ++ "/serverless.yml")
    else
      .ok s
  | none =>
    let f := discoveredLevel service env
    if env.existsAt f = true then
      .ok (relPath f ++ "/serverless.yml")
    else
      .error "Could not discover parent serverless.yml"

/-! ### The call-time pipeline

Order of effects in mergeParentConfigurationIntoService (lines 99-106):
locate the parent path, read and parse it through the loader, and only
then mutate the service document. The host serverless object is modeled
by its service document; the loader is an oracle from paths to parsed
documents or load errors. On a thrown discovery or load error the
document is returned untouched together with the error. -/

/-- The mutable host state owned by the caller. -/
structure ServerlessState where
  service : JVal
deriving DecidableEq

/-- One invocation of the merge routine of the plugin against a
filesystem and loader: the resulting host state and the error, if any. -/
def runPlugin (st : ServerlessState) (env : FsEnv)
    (loader : String → Except String JVal) : ServerlessState × Option String :=
  match getParentConfigurationRelativePath st.service env with
  | .error e => (st, some e)
  | .ok p =>
    match loader p with
    | .error e => (st, some e)
    | .ok parent =>
      ({ service := mergeParentConfigurationIntoService st.service parent }, none)

/-! ### Printing the effective configuration -/

/-- Line 80 of src/index.js: the fixed whitelist of sections. -/
def fieldsToOutput : List String :=
  ["custom", "functions", "package", "provider", "resources", "service"]

/-- Lines 78-93: the sections that printEffectiveConfig serializes, in
whitelist order: a section appears when its value is truthy and
Object.keys on it counts at least one key. -/
def printEffectiveConfig (service : JVal) : List (String × JVal) :=
  fieldsToOutput.filterMap fun f =>
    match jsField f service with
    | some v => if jsTruthy v && decide (0 < jsKeyCount v) then some (f, v) else none
    | none => none

/-! ### Spec-side comparator definitions

These definitions follow the words of the specification, not the source;
they exist only to state where the source deviates from the claims. -/

/-- Modelled from the spec, section 4.2: the direction flag is read from
the pristine child document, then parent wins when true and the original
child wins when false (two-pass strategy of the spec). -/
def specMergeConfigurations (child parent : JVal) : JVal :=
  if overwriteFlagOf child then lodashMerge child parent
  else lodashMerge (lodashMerge child parent) child

/-- Whether the pattern is a trailing segment of the character list. -/
def trailsWith (pat s : List Char) : Bool :=
  leadsWith pat.reverse s.reverse

/-- Modelled from the spec, section 4.1 step 1: append the fixed filename
when the explicit path does not end with the conventional filename
marker, otherwise return the path verbatim. -/
def specLocateExplicit (s : String) : String :=
  if trailsWith ".yml".toList s.toList then s else s ++ "/serverless.yml"

/-- Modelled from the spec, section 6: a section is empty when it is an
empty mapping, an empty sequence or an empty string. -/
def isEmptySection : JVal → Bool
  | .obj .nil => true
  | .arr .nil => true
  | .str s => s == ""
  | _ => false

/-- Modelled from the spec, section 6: the print-effective operation
serializes exactly the whitelisted sections, omitting exactly those that
are absent or empty. -/
def specPrintClaimHolds (doc : JVal) : Prop :=
  ∀ f ∈ fieldsToOutput,
    ((∃ v, jsField f doc = some v ∧ isEmptySection v = false) ↔
      (∃ v, (f, v) ∈ printEffectiveConfig doc))

/-- Whether a value is a mapping without a binding for the given key. -/
def objWithoutKey (k : String) : JVal → Bool
  | .obj fs => !hasKeyF k fs
  | _ => false

/-! ### Lemmas on field lookup and update -/

theorem lookupF_replaceKey_ne {k2 k : String} (w : JVal) (h : k2 ≠ k) :
    ∀ d : JFields, lookupF k2 (replaceKey k w d) = lookupF k2 d
  | .nil => rfl
  | .cons k3 v tl => by
    by_cases h3 : k3 = k
    · subst h3
      simp [replaceKey, lookupF, Ne.symm h]
    · simp only [replaceKey, if_neg h3, lookupF]
      by_cases h2 : k3 = k2 <;>
        simp [h2, lookupF_replaceKey_ne w h tl]

theorem lookupF_replaceKey_eq {k : String} (w : JVal) :
    ∀ {d : JFields} {v : JVal}, lookupF k d = some v →
      lookupF k (replaceKey k w d) = some w
  | .cons k3 v3 tl, v, h => by
    by_cases h3 : k3 = k
    · subst h3
      simp [replaceKey, lookupF]
    · simp only [lookupF, if_neg h3] at h
      simp [replaceKey, lookupF, h3, lookupF_replaceKey_eq w h]

theorem replaceKey_cancel {k : String} :
    ∀ {d : JFields} {w : JVal}, lookupF k d = some w → replaceKey k w d = d
  | .cons k3 v3 tl, w, h => by
    by_cases h3 : k3 = k
    · subst h3
      simp [lookupF] at h
      simp [replaceKey, h]
    · simp only [lookupF, if_neg h3] at h
      simp [replaceKey, h3, replaceKey_cancel h]

theorem lookupF_appendKey_ne {k2 k : String} (w : JVal) (h : k2 ≠ k) :
    ∀ d : JFields, lookupF k2 (appendKey k w d) = lookupF k2 d
  | .nil => by simp [appendKey, lookupF, Ne.symm h]
  | .cons k3 v tl => by
    by_cases h3 : k3 = k2 <;>
      simp [appendKey, lookupF, h3, lookupF_appendKey_ne w h tl]

theorem lookupF_appendKey_eq {k : String} (w : JVal) :
    ∀ {d : JFields}, lookupF k d = none → lookupF k (appendKey k w d) = some w
  | .nil, _ => by simp [appendKey, lookupF]
  | .cons k3 v tl, h => by
    by_cases h3 : k3 = k
    · simp [lookupF, h3] at h
    · simp only [lookupF, if_neg h3] at h
      simp [appendKey, lookupF, h3, lookupF_appendKey_eq w h]

theorem hasKeyF_false_lookupF {k : String} :
    ∀ {d : JFields}, hasKeyF k d = false → lookupF k d = none
  | .nil, _ => rfl
  | .cons k3 v tl, h => by
    simp only [hasKeyF, Bool.or_eq_false_iff, beq_eq_false_iff_ne, ne_eq] at h
    simp [lookupF, h.1, hasKeyF_false_lookupF h.2]

theorem wfFields_lookupF {k : String} :
    ∀ {fs : JFields} {v : JVal}, wfFields fs = true → lookupF k fs = some v →
      wfVal v = true
  | .cons k3 v3 tl, v, hwf, h => by
    obtain ⟨hk3, hw3, htl⟩ :
        hasKeyF k3 tl = false ∧ wfVal v3 = true ∧ wfFields tl = true := by
      simpa [wfFields, Bool.and_assoc] using hwf
    by_cases h3 : k3 = k
    · simp only [lookupF, if_pos h3, Option.some.injEq] at h
      exact h ▸ hw3
    · simp only [lookupF, if_neg h3] at h
      exact wfFields_lookupF htl h

theorem lookupF_mergeFields_notin {k2 : String} :
    ∀ (s : JFields), hasKeyF k2 s = false → ∀ d : JFields,
      lookupF k2 (mergeFields d s) = lookupF k2 d
  | .nil, _, d => rfl
  | .cons k sv rest, h, d => by
    obtain ⟨h1, h2⟩ : k ≠ k2 ∧ hasKeyF k2 rest = false := by
      simpa [hasKeyF] using h
    cases hl : lookupF k d with
    | some dv =>
      have e1 : mergeFields d (.cons k sv rest) =
          mergeFields (replaceKey k (lodashMerge dv sv) d) rest := by
        simp only [mergeFields, hl]
      rw [e1, lookupF_mergeFields_notin rest h2,
        lookupF_replaceKey_ne _ (Ne.symm h1)]
    | none =>
      have e1 : mergeFields d (.cons k sv rest) =
          mergeFields (appendKey k sv d) rest := by
        simp only [mergeFields, hl]
      rw [e1, lookupF_mergeFields_notin rest h2,
        lookupF_appendKey_ne _ (Ne.symm h1)]

theorem lookupF_mergeFields_both {k : String} :
    ∀ (s : JFields), wfFields s = true → ∀ {d : JFields} {sv dv : JVal},
      lookupF k s = some sv → lookupF k d = some dv →
      lookupF k (mergeFields d s) = some (lodashMerge dv sv)
  | .cons k1 sv1 rest, hwf, d, sv, dv, hs, hd => by
    obtain ⟨hk1, hw1, hrest⟩ :
        hasKeyF k1 rest = false ∧ wfVal sv1 = true ∧ wfFields rest = true := by
      simpa [wfFields, Bool.and_assoc] using hwf
    by_cases h1 : k1 = k
    · subst h1
      simp [lookupF] at hs
      subst hs
      have e1 : mergeFields d (.cons k1 sv1 rest) =
          mergeFields (replaceKey k1 (lodashMerge dv sv1) d) rest := by
        simp only [mergeFields, hd]
      rw [e1, lookupF_mergeFields_notin rest hk1,
        lookupF_replaceKey_eq _ hd]
    · simp only [lookupF, if_neg h1] at hs
      cases hl : lookupF k1 d with
      | some dv1 =>
        have e1 : mergeFields d (.cons k1 sv1 rest) =
            mergeFields (replaceKey k1 (lodashMerge dv1 sv1) d) rest := by
          simp only [mergeFields, hl]
        rw [e1, lookupF_mergeFields_both rest hrest hs
          (by rw [lookupF_replaceKey_ne _ (Ne.symm h1)]; exact hd)]
      | none =>
        have e1 : mergeFields d (.cons k1 sv1 rest) =
            mergeFields (appendKey k1 sv1 d) rest := by
          simp only [mergeFields, hl]
        rw [e1, lookupF_mergeFields_both rest hrest hs
          (by rw [lookupF_appendKey_ne _ (Ne.symm h1)]; exact hd)]

theorem lookupF_mergeFields_new {k : String} :
    ∀ (s : JFields), wfFields s = true → ∀ {d : JFields} {sv : JVal},
      lookupF k s = some sv → lookupF k d = none →
      lookupF k (mergeFields d s) = some sv
  | .cons k1 sv1 rest, hwf, d, sv, hs, hd => by
    obtain ⟨hk1, hw1, hrest⟩ :
        hasKeyF k1 rest = false ∧ wfVal sv1 = true ∧ wfFields rest = true := by
      simpa [wfFields, Bool.and_assoc] using hwf
    by_cases h1 : k1 = k
    · subst h1
      simp [lookupF] at hs
      subst hs
      have e1 : mergeFields d (.cons k1 sv1 rest) =
          mergeFields (appendKey k1 sv1 d) rest := by
        simp only [mergeFields, hd]
      rw [e1, lookupF_mergeFields_notin rest hk1,
        lookupF_appendKey_eq _ hd]
    · simp only [lookupF, if_neg h1] at hs
      cases hl : lookupF k1 d with
      | some dv1 =>
        have e1 : mergeFields d (.cons k1 sv1 rest) =
            mergeFields (replaceKey k1 (lodashMerge dv1 sv1) d) rest := by
          simp only [mergeFields, hl]
        rw [e1, lookupF_mergeFields_new rest hrest hs
          (by rw [lookupF_replaceKey_ne _ (Ne.symm h1)]; exact hd)]
      | none =>
        have e1 : mergeFields d (.cons k1 sv1 rest) =
            mergeFields (appendKey k1 sv1 d) rest := by
          simp only [mergeFields, hl]
        rw [e1, lookupF_mergeFields_new rest hrest hs
          (by rw [lookupF_appendKey_ne _ (Ne.symm h1)]; exact hd)]

/-! ### Concatenation of field lists and the clone identity -/

/-- Concatenation of two field lists. -/
def appendF : JFields → JFields → JFields
  | .nil, s => s
  | .cons k v tl, s => .cons k v (appendF tl s)

theorem appendKey_eq_appendF (k : String) (w : JVal) :
    ∀ d : JFields, appendKey k w d = appendF d (.cons k w .nil)
  | .nil => rfl
  | .cons k2 v tl => by
    show JFields.cons k2 v (appendKey k w tl) = .cons k2 v (appendF tl (.cons k w .nil))
    rw [appendKey_eq_appendF k w tl]

theorem appendF_assoc : ∀ (a b c : JFields),
    appendF (appendF a b) c = appendF a (appendF b c)
  | .nil, _, _ => rfl
  | .cons k v tl, b, c => by
    show JFields.cons k v (appendF (appendF tl b) c) = .cons k v (appendF tl (appendF b c))
    rw [appendF_assoc tl b c]

theorem appendF_nil : ∀ d : JFields, appendF d .nil = d
  | .nil => rfl
  | .cons k v tl => congrArg (JFields.cons k v) (appendF_nil tl)

theorem mergeFields_disjoint :
    ∀ (s : JFields), wfFields s = true → ∀ d : JFields,
      (∀ k2, hasKeyF k2 s = true → lookupF k2 d = none) →
      mergeFields d s = appendF d s
  | .nil, _, d, _ => (appendF_nil d).symm
  | .cons k sv rest, hwf, d, hdisj => by
    obtain ⟨hk, hwv, hrest⟩ :
        hasKeyF k rest = false ∧ wfVal sv = true ∧ wfFields rest = true := by
      simpa [wfFields, Bool.and_assoc] using hwf
    have hd : lookupF k d = none := hdisj k (by simp [hasKeyF])
    have e1 : mergeFields d (.cons k sv rest) =
        mergeFields (appendKey k sv d) rest := by
      simp only [mergeFields, hd]
    have hdisj2 : ∀ k2, hasKeyF k2 rest = true → lookupF k2 (appendKey k sv d) = none := by
      intro k2 hk2
      have hne : k2 ≠ k := by
        intro he
        rw [he] at hk2
        rw [hk2] at hk
        exact Bool.noConfusion hk
      rw [lookupF_appendKey_ne _ hne]
      exact hdisj k2 (by simp [hasKeyF, hk2])
    rw [e1, mergeFields_disjoint rest hrest (appendKey k sv d) hdisj2,
      appendKey_eq_appendF, appendF_assoc]
    rfl

/-- Merging any well-formed document over the empty mapping yields that
document: this is the deep clone on line 105 of src/index.js. -/
theorem lodashMerge_empty_obj : ∀ (v : JVal), wfVal v = true →
    lodashMerge (.obj .nil) v = v
  | .null, _ => rfl
  | .bool _, _ => rfl
  | .num _, _ => rfl
  | .str _, _ => rfl
  | .arr _, _ => rfl
  | .obj fs, h => by
    show JVal.obj (mergeFields .nil fs) = .obj fs
    rw [mergeFields_disjoint fs h .nil (fun _ _ => rfl)]
    rfl

/-! ### Membership in field lists and sequences -/

/-- A key-value entry occurring in a field list. -/
def memEntry (k : String) (v : JVal) : JFields → Prop
  | .nil => False
  | .cons k2 v2 tl => (k2 = k ∧ v2 = v) ∨ memEntry k v tl

/-- An element occurring in a sequence. -/
def memElem (v : JVal) : JList → Prop
  | .nil => False
  | .cons v2 tl => v2 = v ∨ memElem v tl

theorem memEntry_hasKeyF {k : String} {v : JVal} :
    ∀ {fs : JFields}, memEntry k v fs → hasKeyF k fs = true
  | .cons k2 v2 tl, h => by
    rcases h with ⟨h1, -⟩ | h
    · simp [hasKeyF, h1]
    · simp [hasKeyF, memEntry_hasKeyF h]

theorem lookupF_of_memEntry {k : String} {v : JVal} :
    ∀ {fs : JFields}, wfFields fs = true → memEntry k v fs → lookupF k fs = some v
  | .cons k2 v2 tl, hwf, h => by
    obtain ⟨hk2, hw2, htl⟩ :
        hasKeyF k2 tl = false ∧ wfVal v2 = true ∧ wfFields tl = true := by
      simpa [wfFields, Bool.and_assoc] using hwf
    rcases h with ⟨h1, h2⟩ | h
    · subst h1
      subst h2
      simp [lookupF]
    · have hne : k2 ≠ k := by
        intro he
        subst he
        rw [memEntry_hasKeyF h] at hk2
        exact Bool.noConfusion hk2
      simp only [lookupF, if_neg hne]
      exact lookupF_of_memEntry htl h

theorem wfVal_of_memEntry {k : String} {v : JVal} :
    ∀ {fs : JFields}, wfFields fs = true → memEntry k v fs → wfVal v = true
  | .cons k2 v2 tl, hwf, h => by
    obtain ⟨hk2, hw2, htl⟩ :
        hasKeyF k2 tl = false ∧ wfVal v2 = true ∧ wfFields tl = true := by
      simpa [wfFields, Bool.and_assoc] using hwf
    rcases h with ⟨-, h2⟩ | h
    · exact h2 ▸ hw2
    · exact wfVal_of_memEntry htl h

theorem wfVal_of_memElem {v : JVal} :
    ∀ {xs : JList}, wfList xs = true → memElem v xs → wfVal v = true
  | .cons v2 tl, hwf, h => by
    obtain ⟨hw2, htl⟩ : wfVal v2 = true ∧ wfList tl = true := by
      simpa [wfList] using hwf
    rcases h with h1 | h
    · exact h1 ▸ hw2
    · exact wfVal_of_memElem htl h

theorem memEntry_sizeOf {k : String} {v : JVal} :
    ∀ {fs : JFields}, memEntry k v fs → sizeOf v < sizeOf fs
  | .cons k2 v2 tl, h => by
    rcases h with ⟨-, h2⟩ | h
    · subst h2
      simp only [JFields.cons.sizeOf_spec]
      omega
    · have := memEntry_sizeOf h
      simp only [JFields.cons.sizeOf_spec]
      omega

theorem memElem_sizeOf {v : JVal} :
    ∀ {xs : JList}, memElem v xs → sizeOf v < sizeOf xs
  | .cons v2 tl, h => by
    rcases h with h1 | h
    · subst h1
      simp only [JList.cons.sizeOf_spec]
      omega
    · have := memElem_sizeOf h
      simp only [JList.cons.sizeOf_spec]
      omega

/-! ### Idempotence of the merge on well-formed documents -/

theorem mergeFields_fixed :
    ∀ (s d : JFields),
      (∀ k sv, memEntry k sv s →
        ∃ w, lookupF k d = some w ∧ lodashMerge w sv = w) →
      mergeFields d s = d
  | .nil, d, _ => rfl
  | .cons k sv rest, d, h => by
    obtain ⟨w, hw, hmw⟩ := h k sv (Or.inl ⟨rfl, rfl⟩)
    have e1 : mergeFields d (.cons k sv rest) =
        mergeFields (replaceKey k (lodashMerge w sv) d) rest := by
      simp only [mergeFields, hw]
    rw [e1, hmw, replaceKey_cancel hw]
    exact mergeFields_fixed rest d (fun k2 sv2 hm => h k2 sv2 (Or.inr hm))

theorem mergeElems_pointwise_self :
    ∀ (xs : JList), (∀ v, memElem v xs → lodashMerge v v = v) →
      mergeElems xs xs = xs
  | .nil, _ => rfl
  | .cons v tl, h => by
    show JList.cons (lodashMerge v v) (mergeElems tl tl) = .cons v tl
    rw [h v (Or.inl rfl),
      mergeElems_pointwise_self tl (fun w hw => h w (Or.inr hw))]

theorem mergeFields_pointwise_self (fs : JFields) (hwf : wfFields fs = true)
    (h : ∀ k sv, memEntry k sv fs → lodashMerge sv sv = sv) :
    mergeFields fs fs = fs :=
  mergeFields_fixed fs fs
    (fun k sv hm => ⟨sv, lookupF_of_memEntry hwf hm, h k sv hm⟩)

/-- Merging a well-formed document over itself is the identity. -/
theorem lodashMerge_self : ∀ (v : JVal), wfVal v = true → lodashMerge v v = v
  | .null, _ => rfl
  | .bool _, _ => rfl
  | .num _, _ => rfl
  | .str _, _ => rfl
  | .arr xs, h => by
    show JVal.arr (mergeElems xs xs) = .arr xs
    rw [mergeElems_pointwise_self xs
      (fun v hv => lodashMerge_self v (wfVal_of_memElem h hv))]
  | .obj fs, h => by
    show JVal.obj (mergeFields fs fs) = .obj fs
    rw [mergeFields_pointwise_self fs h
      (fun k sv hm => lodashMerge_self sv (wfVal_of_memEntry h hm))]
termination_by v => sizeOf v
decreasing_by
  · have := memElem_sizeOf hv
    simp only [JVal.arr.sizeOf_spec]
    omega
  · have := memEntry_sizeOf hm
    simp only [JVal.obj.sizeOf_spec]
    omega

/-! ### Absorption: re-merging the same source is a no-op -/

theorem mergeElems_nil : ∀ d : JList, mergeElems d .nil = d
  | .nil => rfl
  | .cons _ _ => rfl

theorem mergeElems_absorb_aux :
    ∀ (sx : JList),
      (∀ dv sv, memElem sv sx →
        lodashMerge (lodashMerge dv sv) sv = lodashMerge dv sv) →
      (∀ sv, memElem sv sx → lodashMerge sv sv = sv) →
      ∀ dx : JList, mergeElems (mergeElems dx sx) sx = mergeElems dx sx
  | .nil, _, _, dx => by rw [mergeElems_nil, mergeElems_nil]
  | .cons sv stl, habs, hid, dx => by
    cases dx with
    | nil =>
      show mergeElems (JList.cons sv stl) (.cons sv stl) = .cons sv stl
      exact mergeElems_pointwise_self _ hid
    | cons dv dtl =>
      show JList.cons (lodashMerge (lodashMerge dv sv) sv)
          (mergeElems (mergeElems dtl stl) stl)
        = .cons (lodashMerge dv sv) (mergeElems dtl stl)
      rw [habs dv sv (Or.inl rfl),
        mergeElems_absorb_aux stl
          (fun dv2 sv2 hm => habs dv2 sv2 (Or.inr hm))
          (fun sv2 hm => hid sv2 (Or.inr hm)) dtl]

theorem mergeFields_absorb_aux :
    ∀ (sf : JFields), wfFields sf = true →
      (∀ dv k sv, memEntry k sv sf →
        lodashMerge (lodashMerge dv sv) sv = lodashMerge dv sv) →
      (∀ k sv, memEntry k sv sf → lodashMerge sv sv = sv) →
      ∀ df : JFields, mergeFields (mergeFields df sf) sf = mergeFields df sf
  | .nil, _, _, _, df => rfl
  | .cons k sv rest, hwf, habs, hid, df => by
    obtain ⟨hk, hwv, hwrest⟩ :
        hasKeyF k rest = false ∧ wfVal sv = true ∧ wfFields rest = true := by
      simpa [wfFields, Bool.and_assoc] using hwf
    have habs2 : ∀ dv2 k2 sv2, memEntry k2 sv2 rest →
        lodashMerge (lodashMerge dv2 sv2) sv2 = lodashMerge dv2 sv2 :=
      fun dv2 k2 sv2 hm => habs dv2 k2 sv2 (Or.inr hm)
    have hid2 : ∀ k2 sv2, memEntry k2 sv2 rest → lodashMerge sv2 sv2 = sv2 :=
      fun k2 sv2 hm => hid k2 sv2 (Or.inr hm)
    cases hl : lookupF k df with
    | some dv =>
      have e1 : mergeFields df (.cons k sv rest) =
          mergeFields (replaceKey k (lodashMerge dv sv) df) rest := by
        simp only [mergeFields, hl]
      have hMl : lookupF k (mergeFields (replaceKey k (lodashMerge dv sv) df) rest)
          = some (lodashMerge dv sv) := by
        rw [lookupF_mergeFields_notin rest hk, lookupF_replaceKey_eq _ hl]
      rw [e1]
      have e2 : mergeFields (mergeFields (replaceKey k (lodashMerge dv sv) df) rest)
            (.cons k sv rest)
          = mergeFields
              (replaceKey k (lodashMerge (lodashMerge dv sv) sv)
                (mergeFields (replaceKey k (lodashMerge dv sv) df) rest)) rest := by
        simp only [mergeFields, hMl]
      rw [e2, habs dv k sv (Or.inl ⟨rfl, rfl⟩), replaceKey_cancel hMl]
      exact mergeFields_absorb_aux rest hwrest habs2 hid2 _
    | none =>
      have e1 : mergeFields df (.cons k sv rest) =
          mergeFields (appendKey k sv df) rest := by
        simp only [mergeFields, hl]
      have hMl : lookupF k (mergeFields (appendKey k sv df) rest) = some sv := by
        rw [lookupF_mergeFields_notin rest hk, lookupF_appendKey_eq _ hl]
      rw [e1]
      have e2 : mergeFields (mergeFields (appendKey k sv df) rest) (.cons k sv rest)
          = mergeFields
              (replaceKey k (lodashMerge sv sv)
                (mergeFields (appendKey k sv df) rest)) rest := by
        simp only [mergeFields, hMl]
      rw [e2, hid k sv (Or.inl ⟨rfl, rfl⟩), replaceKey_cancel hMl]
      exact mergeFields_absorb_aux rest hwrest habs2 hid2 _

/-- Merging the same well-formed source twice in a row gives the same
result as merging it once. -/
theorem lodashMerge_absorb : ∀ (d s : JVal), wfVal s = true →
    lodashMerge (lodashMerge d s) s = lodashMerge d s
  | d, .null, _ => by cases d <;> rfl
  | d, .bool b, _ => by cases d <;> rfl
  | d, .num n, _ => by cases d <;> rfl
  | d, .str s2, _ => by cases d <;> rfl
  | d, .arr sx, h => by
    cases d with
    | arr dx =>
      show JVal.arr (mergeElems (mergeElems dx sx) sx) = .arr (mergeElems dx sx)
      rw [mergeElems_absorb_aux sx
        (fun dv sv hm => lodashMerge_absorb dv sv (wfVal_of_memElem h hm))
        (fun sv hm => lodashMerge_self sv (wfVal_of_memElem h hm)) dx]
    | null => exact congrArg (fun xs => JVal.arr xs) (mergeElems_pointwise_self sx
        (fun sv hm => lodashMerge_self sv (wfVal_of_memElem h hm)))
    | bool b => exact congrArg (fun xs => JVal.arr xs) (mergeElems_pointwise_self sx
        (fun sv hm => lodashMerge_self sv (wfVal_of_memElem h hm)))
    | num n => exact congrArg (fun xs => JVal.arr xs) (mergeElems_pointwise_self sx
        (fun sv hm => lodashMerge_self sv (wfVal_of_memElem h hm)))
    | str s2 => exact congrArg (fun xs => JVal.arr xs) (mergeElems_pointwise_self sx
        (fun sv hm => lodashMerge_self sv (wfVal_of_memElem h hm)))
    | obj df => exact congrArg (fun xs => JVal.arr xs) (mergeElems_pointwise_self sx
        (fun sv hm => lodashMerge_self sv (wfVal_of_memElem h hm)))
  | d, .obj sf, h => by
    cases d with
    | obj df =>
      show JVal.obj (mergeFields (mergeFields df sf) sf) = .obj (mergeFields df sf)
      rw [mergeFields_absorb_aux sf h
        (fun dv k sv hm => lodashMerge_absorb dv sv (wfVal_of_memEntry h hm))
        (fun k sv hm => lodashMerge_self sv (wfVal_of_memEntry h hm)) df]
    | null => exact congrArg (fun fs => JVal.obj fs) (mergeFields_pointwise_self sf h
        (fun k sv hm => lodashMerge_self sv (wfVal_of_memEntry h hm)))
    | bool b => exact congrArg (fun fs => JVal.obj fs) (mergeFields_pointwise_self sf h
        (fun k sv hm => lodashMerge_self sv (wfVal_of_memEntry h hm)))
    | num n => exact congrArg (fun fs => JVal.obj fs) (mergeFields_pointwise_self sf h
        (fun k sv hm => lodashMerge_self sv (wfVal_of_memEntry h hm)))
    | str s2 => exact congrArg (fun fs => JVal.obj fs) (mergeFields_pointwise_self sf h
        (fun k sv hm => lodashMerge_self sv (wfVal_of_memEntry h hm)))
    | arr dx => exact congrArg (fun fs => JVal.obj fs) (mergeFields_pointwise_self sf h
        (fun k sv hm => lodashMerge_self sv (wfVal_of_memEntry h hm)))
termination_by _ s => sizeOf s
decreasing_by
  · have := memElem_sizeOf hm
    simp only [JVal.arr.sizeOf_spec]
    omega
  · have := memEntry_sizeOf hm
    simp only [JVal.obj.sizeOf_spec]
    omega

/-! ### Path lookups through a merge -/

/-- A scalar source value always replaces the destination. -/
theorem lodashMerge_scalar_src : ∀ (d s : JVal), isScalar s = true →
    lodashMerge d s = s
  | d, .null, _ => by cases d <;> rfl
  | d, .bool _, _ => by cases d <;> rfl
  | d, .num _, _ => by cases d <;> rfl
  | d, .str _, _ => by cases d <;> rfl
  | _, .arr _, h => by simp [isScalar] at h
  | _, .obj _, h => by simp [isScalar] at h

/-- A scalar reachable through mapping keys in a well-formed source
document is still reachable, with the same value, after the source is
merged over any destination. -/
theorem getPath_lodashMerge_scalar :
    ∀ (ks : List String) (s d v : JVal), wfVal s = true →
      getPath s ks = some v → isScalar v = true →
      getPath (lodashMerge d s) ks = some v
  | [], s, d, v, hw, hp, hs => by
    simp only [getPath, Option.some.injEq] at hp
    subst hp
    rw [lodashMerge_scalar_src d s hs]
    rfl
  | k :: ks, s, d, v, hw, hp, hs => by
    cases s with
    | obj sf =>
      simp only [getPath, jsField] at hp
      cases hsv : lookupF k sf with
      | none => rw [hsv] at hp; exact Option.noConfusion hp
      | some sv =>
        rw [hsv] at hp
        have hwsv : wfVal sv = true := wfFields_lookupF hw hsv
        have horig : getPath (JVal.obj sf) (k :: ks) = some v := by
          simp only [getPath, jsField, hsv]
          exact hp
        cases d with
        | obj df =>
          show getPath (JVal.obj (mergeFields df sf)) (k :: ks) = some v
          simp only [getPath, jsField]
          cases hdv : lookupF k df with
          | some dv =>
            rw [lookupF_mergeFields_both sf hw hsv hdv]
            exact getPath_lodashMerge_scalar ks sv dv v hwsv hp hs
          | none =>
            rw [lookupF_mergeFields_new sf hw hsv hdv]
            exact hp
        | null => exact horig
        | bool b => exact horig
        | num n => exact horig
        | str s2 => exact horig
        | arr dx => exact horig
    | null => simp [getPath, jsField] at hp
    | bool b => simp [getPath, jsField] at hp
    | num n => simp [getPath, jsField] at hp
    | str s2 => simp [getPath, jsField] at hp
    | arr xs => simp [getPath, jsField] at hp

/-- When the top-level key is absent from the source mapping, paths
through that key see only the destination after a merge. -/
theorem getPath_lodashMerge_absent {k : String} (df sf : JFields)
    (ks : List String) (h : hasKeyF k sf = false) :
    getPath (lodashMerge (.obj df) (.obj sf)) (k :: ks) =
      getPath (.obj df) (k :: ks) := by
  show getPath (JVal.obj (mergeFields df sf)) (k :: ks) = getPath (.obj df) (k :: ks)
  simp only [getPath, jsField]
  rw [lookupF_mergeFields_notin sf h df]

/-! ### Lemmas on the discovery loop -/

theorem relPath_length : ∀ k : Nat, 1 ≤ k → (relPath k).length = 3 * k - 1
  | 1, _ => rfl
  | k + 2, _ => by
    have ih := relPath_length (k + 1) (by omega)
    show (relPath (k + 1) ++ "/..").length = 3 * (k + 2) - 1
    rw [String.length_append, ih]
    have h3 : "/..".length = 3 := rfl
    rw [h3]
    omega

theorem searchFrom_ge (env : FsEnv) (bound : Int) :
    ∀ (fuel k : Nat), k ≤ searchFrom env bound fuel k
  | 0, k => Nat.le_refl k
  | fuel + 1, k => by
    simp only [searchFrom]
    split
    · exact Nat.le_trans (Nat.le_succ k) (searchFrom_ge env bound fuel (k + 1))
    · exact Nat.le_refl k

theorem searchFrom_le (env : FsEnv) (N : Int) :
    ∀ (fuel k : Nat), 1 ≤ k → (k : Int) ≤ N →
      (searchFrom env ((N - 1) * 3) fuel k : Int) ≤ N
  | 0, k, _, hk => hk
  | fuel + 1, k, h1, hk => by
    simp only [searchFrom]
    split
    · next hc =>
      obtain ⟨-, -, hlen⟩ := hc
      rw [relPath_length k h1] at hlen
      exact searchFrom_le env N fuel (k + 1) (by omega) (by omega)
    · exact hk

theorem searchFrom_home_stop (env : FsEnv) (bound : Int) (fuel k : Nat)
    (h : env.isHomeAt k = true) : searchFrom env bound fuel k = k := by
  cases fuel with
  | zero => rfl
  | succ fuel =>
    simp only [searchFrom]
    rw [if_neg]
    intro hc
    rw [h] at hc
    exact Bool.noConfusion hc.2.1

theorem searchFrom_no_home_passed (env : FsEnv) (bound : Int) :
    ∀ (fuel k j : Nat), k ≤ j → j < searchFrom env bound fuel k →
      env.isHomeAt j = false
  | 0, k, j, hkj, hj => absurd hj (by simp only [searchFrom]; omega)
  | fuel + 1, k, j, hkj, hj => by
    revert hj
    simp only [searchFrom]
    split
    · next hc =>
      intro hj
      rcases Nat.eq_or_lt_of_le hkj with heq | hlt
      · exact heq ▸ hc.2.1
      · exact searchFrom_no_home_passed env bound fuel (k + 1) j hlt hj
    · intro hj
      omega

/-- The loop always exits through its own condition when given at least
as much fuel as the model supplies: the returned level refutes the loop
condition, so the fueled recursion agrees with the unbounded while loop
of the source. -/
theorem searchFrom_exits (env : FsEnv) (bound : Int) :
    ∀ (fuel k : Nat), 1 ≤ k → bound ≤ 3 * ((k : Int) + fuel) - 1 →
      ¬(env.existsAt (searchFrom env bound fuel k) = false ∧
        env.isHomeAt (searchFrom env bound fuel k) = false ∧
        ((relPath (searchFrom env bound fuel k)).length : Int) < bound)
  | 0, k, h1, hf => by
    simp only [searchFrom]
    intro hc
    rw [relPath_length k h1] at hc
    have := hc.2.2
    omega
  | fuel + 1, k, h1, hf => by
    simp only [searchFrom]
    split
    · next hc =>
      exact searchFrom_exits env bound fuel (k + 1) (by omega) (by push_cast; push_cast at hf; omega)
    · next hc => exact hc

/-! ### Shape of the index-wise sequence merge -/

theorem mergeElems_jlen : ∀ (d s : JList),
    jlen (mergeElems d s) = max (jlen d) (jlen s)
  | d, .nil => by
    rw [mergeElems_nil]
    simp [jlen]
  | .nil, .cons sv stl => by
    show jlen (JList.cons sv stl) = max (jlen .nil) (jlen (.cons sv stl))
    simp [jlen]
  | .cons dv dtl, .cons sv stl => by
    show jlen (JList.cons (lodashMerge dv sv) (mergeElems dtl stl)) = _
    simp only [jlen, mergeElems_jlen dtl stl]
    omega

theorem mergeElems_jget : ∀ (d s : JList) (i : Nat),
    jget (mergeElems d s) i =
      match jget d i, jget s i with
      | some dv, some sv => some (lodashMerge dv sv)
      | some dv, none => some dv
      | none, some sv => some sv
      | none, none => none
  | d, .nil, i => by
    rw [mergeElems_nil]
    have hs : jget JList.nil i = none := by cases i <;> rfl
    rw [hs]
    cases hd : jget d i <;> rfl
  | .nil, .cons sv stl, i => by
    show jget (JList.cons sv stl) i = _
    have hd : jget JList.nil i = none := by cases i <;> rfl
    rw [hd]
    cases hs : jget (JList.cons sv stl) i <;> rfl
  | .cons dv dtl, .cons sv stl, i => by
    cases i with
    | zero => rfl
    | succ i =>
      show jget (mergeElems dtl stl) i = _
      exact mergeElems_jget dtl stl i

/-! ### Claims -/

/-- C10: deep-merging the same parent document into the service twice in
succession, as the implementation does before and after reading the
direction flag, produces the same effective document as a single
parent-over-child deep merge; the routine is therefore equivalent to one
parent-over-child merge, followed, when the flag read from the merged
document is disabled, by one child-over-result merge. -/
theorem claim10_second_merge_noop (c p : JVal)
    (hwc : wfVal c = true) (hwp : wfVal p = true) :
    lodashMerge (lodashMerge c p) p = lodashMerge c p ∧
    mergeParentConfigurationIntoService c p =
      (if overwriteFlagOf (lodashMerge c p) then lodashMerge c p
       else lodashMerge (lodashMerge c p) c) := by
  have habs := lodashMerge_absorb c p hwp
  refine ⟨habs, ?_⟩
  simp only [mergeParentConfigurationIntoService]
  rw [lodashMerge_empty_obj c hwc, habs]

/-- C10 witness: a concrete child and parent with nested mappings and a
sequence, on which the double merge collapses to the single merge. -/
theorem claim10_witness :
    lodashMerge (lodashMerge
        (jobj [("a", .num 1), ("b", jobj [("x", .num 2)])])
        (jobj [("b", jobj [("y", .num 3)]), ("c", jarr [.num 4])]))
      (jobj [("b", jobj [("y", .num 3)]), ("c", jarr [.num 4])])
    = lodashMerge
        (jobj [("a", .num 1), ("b", jobj [("x", .num 2)])])
        (jobj [("b", jobj [("y", .num 3)]), ("c", jarr [.num 4])]) :=
  (claim10_second_merge_noop
    (jobj [("a", .num 1), ("b", jobj [("x", .num 2)])])
    (jobj [("b", jobj [("y", .num 3)]), ("c", jarr [.num 4])])
    (by decide) (by decide)).1

/-- C1 (amended): the merge direction is determined by the value of
custom.parent.overwriteServiceConfig as it stands after the parent has
been deep-merged over the child, not in the pristine child; in
particular, when the parent document itself carries the flag with value
b, the direction is b regardless of the pristine child value. -/
theorem claim1_direction_from_merged_flag (c p : JVal) (b : Bool)
    (hwc : wfVal c = true) (hwp : wfVal p = true)
    (hp : getPath p ["custom", "parent", "overwriteServiceConfig"]
      = some (.bool b)) :
    overwriteFlagOf (lodashMerge c p) = b ∧
    mergeParentConfigurationIntoService c p =
      (if b then lodashMerge (lodashMerge c p) p
       else lodashMerge (lodashMerge (lodashMerge c p) p) c) := by
  have hflag : getPath (lodashMerge c p)
      ["custom", "parent", "overwriteServiceConfig"] = some (.bool b) :=
    getPath_lodashMerge_scalar _ p c _ hwp hp rfl
  have hof : overwriteFlagOf (lodashMerge c p) = b := by
    cases b <;> simp [overwriteFlagOf, hflag]
  refine ⟨hof, ?_⟩
  simp only [mergeParentConfigurationIntoService]
  rw [lodashMerge_empty_obj c hwc, hof]

/-- C1 witness: the child asks for the default direction, the parent
carries the disabled flag, and the disabled direction is the one used. -/
theorem claim1_witness :
    overwriteFlagOf (lodashMerge
        (jobj [("a", .num 1),
               ("custom", jobj [("parent",
                 jobj [("overwriteServiceConfig", .bool true)])])])
        (jobj [("a", .num 2),
               ("custom", jobj [("parent",
                 jobj [("overwriteServiceConfig", .bool false)])])])) = false ∧
    mergeParentConfigurationIntoService
        (jobj [("a", .num 1),
               ("custom", jobj [("parent",
                 jobj [("overwriteServiceConfig", .bool true)])])])
        (jobj [("a", .num 2),
               ("custom", jobj [("parent",
                 jobj [("overwriteServiceConfig", .bool false)])])])
      = (if false then
          lodashMerge (lodashMerge
            (jobj [("a", .num 1),
                   ("custom", jobj [("parent",
                     jobj [("overwriteServiceConfig", .bool true)])])])
            (jobj [("a", .num 2),
                   ("custom", jobj [("parent",
                     jobj [("overwriteServiceConfig", .bool false)])])]))
            (jobj [("a", .num 2),
                   ("custom", jobj [("parent",
                     jobj [("overwriteServiceConfig", .bool false)])])])
         else
          lodashMerge (lodashMerge (lodashMerge
            (jobj [("a", .num 1),
                   ("custom", jobj [("parent",
                     jobj [("overwriteServiceConfig", .bool true)])])])
            (jobj [("a", .num 2),
                   ("custom", jobj [("parent",
                     jobj [("overwriteServiceConfig", .bool false)])])]))
            (jobj [("a", .num 2),
                   ("custom", jobj [("parent",
                     jobj [("overwriteServiceConfig", .bool false)])])]))
            (jobj [("a", .num 1),
                   ("custom", jobj [("parent",
                     jobj [("overwriteServiceConfig", .bool true)])])])) :=
  claim1_direction_from_merged_flag _ _ false (by decide) (by decide) (by decide)

/-- C1 counterexample: a flag contributed only by the parent changes the
direction, so the effective document differs from the one predicted by
reading the flag from the pristine child. -/
theorem claim1_pristine_flag_counterexample :
    getPath (mergeParentConfigurationIntoService
        (jobj [("a", .num 1)])
        (jobj [("a", .num 2),
               ("custom", jobj [("parent",
                 jobj [("overwriteServiceConfig", .bool false)])])])) ["a"]
      = some (.num 1) ∧
    getPath (specMergeConfigurations
        (jobj [("a", .num 1)])
        (jobj [("a", .num 2),
               ("custom", jobj [("parent",
                 jobj [("overwriteServiceConfig", .bool false)])])])) ["a"]
      = some (.num 2) ∧
    mergeParentConfigurationIntoService
        (jobj [("a", .num 1)])
        (jobj [("a", .num 2),
               ("custom", jobj [("parent",
                 jobj [("overwriteServiceConfig", .bool false)])])])
      ≠ specMergeConfigurations
        (jobj [("a", .num 1)])
        (jobj [("a", .num 2),
               ("custom", jobj [("parent",
                 jobj [("overwriteServiceConfig", .bool false)])])]) :=
  ⟨by decide, by decide, by decide⟩

/-- C3 (amended): when the pristine child disables
overwriteServiceConfig and the parent document has no custom section to
overwrite it, every key path at which the original child holds a scalar
value ends with the original child value in the effective document; keys
holding sequences are exempt, since sequences are merged index-wise
rather than replaced. -/
theorem claim3_child_scalars_preserved (c p : JVal)
    (hwc : wfVal c = true)
    (hflag : getPath c ["custom", "parent", "overwriteServiceConfig"]
      = some (.bool false))
    (hpc : objWithoutKey "custom" p = true) :
    ∀ (ks : List String) (v : JVal), getPath c ks = some v →
      isScalar v = true →
      getPath (mergeParentConfigurationIntoService c p) ks = some v := by
  intro ks v hk hs
  cases c with
  | obj cf =>
    cases p with
    | obj pf =>
      have hnc : hasKeyF "custom" pf = false := by
        simpa [objWithoutKey] using hpc
      have hflag2 : getPath (lodashMerge (.obj cf) (.obj pf))
          ["custom", "parent", "overwriteServiceConfig"] = some (.bool false) := by
        rw [getPath_lodashMerge_absent cf pf _ hnc]
        exact hflag
      have hof : overwriteFlagOf (lodashMerge (.obj cf) (.obj pf)) = false := by
        simp [overwriteFlagOf, hflag2]
      simp only [mergeParentConfigurationIntoService]
      rw [hof, lodashMerge_empty_obj _ hwc]
      simp only [Bool.false_eq_true, if_false]
      exact getPath_lodashMerge_scalar ks (.obj cf) _ v hwc hk hs
    | null => simp [objWithoutKey] at hpc
    | bool b => simp [objWithoutKey] at hpc
    | num n => simp [objWithoutKey] at hpc
    | str s2 => simp [objWithoutKey] at hpc
    | arr xs => simp [objWithoutKey] at hpc
  | null => simp [getPath, jsField] at hflag
  | bool b => simp [getPath, jsField] at hflag
  | num n => simp [getPath, jsField] at hflag
  | str s2 => simp [getPath, jsField] at hflag
  | arr xs => simp [getPath, jsField] at hflag

/-- C3 witness: the scenario from the specification; the child stage
survives the disabled-override merge. -/
theorem claim3_witness :
    getPath (mergeParentConfigurationIntoService
        (jobj [("provider", jobj [("stage", .str "dev")]),
               ("custom", jobj [("parent",
                 jobj [("overwriteServiceConfig", .bool false)])])])
        (jobj [("provider", jobj [("stage", .str "prod"),
                                  ("region", .str "us-east-1")])]))
      ["provider", "stage"] = some (.str "dev") :=
  claim3_child_scalars_preserved _ _ (by decide) (by decide) (by decide)
    ["provider", "stage"] (.str "dev") (by decide) (by decide)

/-- C3 counterexample: with the override disabled, a sequence-valued key
the child defined does not end with the child value: the parent sequence
is longer and its extra element survives into the effective document. -/
theorem claim3_sequence_counterexample :
    getPath
        (jobj [("xs", jarr [.num 1]),
               ("custom", jobj [("parent",
                 jobj [("overwriteServiceConfig", .bool false)])])]) ["xs"]
      = some (jarr [.num 1]) ∧
    getPath (mergeParentConfigurationIntoService
        (jobj [("xs", jarr [.num 1]),
               ("custom", jobj [("parent",
                 jobj [("overwriteServiceConfig", .bool false)])])])
        (jobj [("xs", jarr [.num 9, .num 8])])) ["xs"]
      = some (jarr [.num 1, .num 8]) ∧
    getPath (mergeParentConfigurationIntoService
        (jobj [("xs", jarr [.num 1]),
               ("custom", jobj [("parent",
                 jobj [("overwriteServiceConfig", .bool false)])])])
        (jobj [("xs", jarr [.num 9, .num 8])])) ["xs"]
      ≠ getPath
        (jobj [("xs", jarr [.num 1]),
               ("custom", jobj [("parent",
                 jobj [("overwriteServiceConfig", .bool false)])])]) ["xs"] :=
  ⟨by decide, by decide, by decide⟩

/-- C2 (amended): on a key held by sequences on both sides, the merge is
index-wise, not a replacement: shared indices are merged recursively
with the source element winning scalar conflicts, and whichever side is
longer contributes its trailing elements; the merged length is the
maximum of both lengths, so a shorter winning sequence does not replace
a longer losing one. -/
theorem claim2_sequences_merge_indexwise : ∀ (d s : JList),
    lodashMerge (.arr d) (.arr s) = .arr (mergeElems d s) ∧
    jlen (mergeElems d s) = max (jlen d) (jlen s) ∧
    ∀ i : Nat, jget (mergeElems d s) i =
      match jget d i, jget s i with
      | some dv, some sv => some (lodashMerge dv sv)
      | some dv, none => some dv
      | none, some sv => some sv
      | none, none => none :=
  fun d s => ⟨rfl, mergeElems_jlen d s, mergeElems_jget d s⟩

/-- C2 counterexample: with the default parent-wins direction, a parent
sequence of length one does not replace a child sequence of length two;
the trailing child element survives, so the effective value is not the
winning side sequence in full. -/
theorem claim2_replacement_counterexample :
    getPath (mergeParentConfigurationIntoService
        (jobj [("xs", jarr [.num 1, .num 2])])
        (jobj [("xs", jarr [.num 9])])) ["xs"]
      = some (jarr [.num 9, .num 2]) ∧
    jsField "xs" (jobj [("xs", jarr [.num 9])]) = some (jarr [.num 9]) ∧
    getPath (mergeParentConfigurationIntoService
        (jobj [("xs", jarr [.num 1, .num 2])])
        (jobj [("xs", jarr [.num 9])])) ["xs"]
      ≠ jsField "xs" (jobj [("xs", jarr [.num 9])]) :=
  ⟨by decide, by decide, by decide⟩

/-- C4: with a configured (or defaulted) positive maxLevels of N,
auto-discovery stops at most N levels up, and always reaches at least the
immediate parent directory (level 1), so a maxLevels of 1 still probes
one ancestor before giving up. -/
theorem claim4_discovery_bound (service : JVal) (env : FsEnv) (N : Nat)
    (hN : maxLevelsOf service = (N : Int)) (hpos : 1 ≤ N) :
    1 ≤ discoveredLevel service env ∧ discoveredLevel service env ≤ N := by
  constructor
  · exact searchFrom_ge env _ _ 1
  · have h := searchFrom_le env (N : Int)
      (((maxLevelsOf service - 1) * 3).toNat + 1) 1 (Nat.le_refl 1)
      (by exact_mod_cast hpos)
    rw [hN] at h
    simp only [discoveredLevel, hN]
    exact_mod_cast h

/-- C4 witness: maxLevels 1 on an empty filesystem stops exactly at the
immediate parent directory. -/
theorem claim4_witness :
    1 ≤ discoveredLevel
        (jobj [("custom", jobj [("parent", jobj [("maxLevels", .num 1)])])])
        ⟨fun _ => false, fun _ => false⟩ ∧
    discoveredLevel
        (jobj [("custom", jobj [("parent", jobj [("maxLevels", .num 1)])])])
        ⟨fun _ => false, fun _ => false⟩ ≤ 1 :=
  claim4_discovery_bound _ _ 1 (by decide) (by decide)

/-- C5: the hard safety ceiling of 10 levels announced in the source
comment does not exist in the code; with maxLevels 20 on a filesystem
with no parent file and no reachable home directory, the loop ascends to
level 20, eleven levels past the documented ceiling. -/
theorem claim5_no_hard_ceiling :
    discoveredLevel
        (jobj [("custom", jobj [("parent", jobj [("maxLevels", .num 20)])])])
        ⟨fun _ => false, fun _ => false⟩ = 20 ∧
    10 < discoveredLevel
        (jobj [("custom", jobj [("parent", jobj [("maxLevels", .num 20)])])])
        ⟨fun _ => false, fun _ => false⟩ :=
  ⟨by decide, by decide⟩

/-- C6 (amended): an explicit custom.parent.path is honored without any
filesystem probe: the locator returns it verbatim when it contains the
marker dot-yml anywhere (not only when it ends with it), appends
serverless.yml otherwise, and its result is independent of the
filesystem, so auto-discovery never runs and failures are deferred to
the loader. -/
theorem claim6_explicit_path (service : JVal) (s : String) (env env2 : FsEnv)
    (h : explicitPathOf service = some s) :
    getParentConfigurationRelativePath service env =
      .ok (if occursIn ".yml".toList s.toList then s
           else s ++ "/serverless.yml") ∧
    getParentConfigurationRelativePath service env =
      getParentConfigurationRelativePath service env2 := by
  constructor
  · simp only [getParentConfigurationRelativePath, h]
    cases hocc : occursIn ".yml".toList s.toList <;> simp [hocc]
  · simp only [getParentConfigurationRelativePath, h]

/-- C6 witness: a directory-style explicit path gets the filename
appended and ignores the filesystem entirely. -/
theorem claim6_witness :
    getParentConfigurationRelativePath
        (jobj [("custom", jobj [("parent", jobj [("path", .str "../shared")])])])
        ⟨fun _ => false, fun _ => false⟩
      = .ok (if occursIn ".yml".toList "../shared".toList then "../shared"
             else "../shared" ++ "/serverless.yml") ∧
    getParentConfigurationRelativePath
        (jobj [("custom", jobj [("parent", jobj [("path", .str "../shared")])])])
        ⟨fun _ => false, fun _ => false⟩
      = getParentConfigurationRelativePath
        (jobj [("custom", jobj [("parent", jobj [("path", .str "../shared")])])])
        ⟨fun _ => true, fun _ => true⟩ :=
  claim6_explicit_path _ "../shared" _ _ (by decide)

/-- C6 counterexample: the source checks whether the path contains the
marker, not whether it ends with it: a path containing dot-yml in a
middle segment is returned verbatim, while the claim as stated demands
the filename be appended. -/
theorem claim6_marker_counterexample :
    getParentConfigurationRelativePath
        (jobj [("custom", jobj [("parent", jobj [("path", .str "shared.yml.d")])])])
        ⟨fun _ => false, fun _ => false⟩ = .ok "shared.yml.d" ∧
    trailsWith ".yml".toList "shared.yml.d".toList = false ∧
    specLocateExplicit "shared.yml.d" = "shared.yml.d/serverless.yml" ∧
    "shared.yml.d" ≠ "shared.yml.d/serverless.yml" :=
  ⟨rfl, by decide, by decide, by decide⟩

/-- C7: the upward search never steps past a directory whose canonical
path is the home directory: a level that satisfies the home check stops
the loop on the spot, and every level the loop stepped over, strictly
below the final one, failed the home check. -/
theorem claim7_home_barrier (env : FsEnv) (bound : Int) (fuel k : Nat) :
    (env.isHomeAt k = true → searchFrom env bound fuel k = k) ∧
    (∀ j : Nat, k ≤ j → j < searchFrom env bound fuel k →
      env.isHomeAt j = false) :=
  ⟨searchFrom_home_stop env bound fuel k,
   fun j hkj hj => searchFrom_no_home_passed env bound fuel k j hkj hj⟩

/-- C7 witness: with the home directory two levels up, the search stops
there, and the one level it stepped over was not home. -/
theorem claim7_witness :
    searchFrom ⟨fun _ => false, fun k => k == 2⟩ 24 30 2 = 2 ∧
    FsEnv.isHomeAt ⟨fun _ => false, fun k => k == 2⟩ 1 = false :=
  ⟨(claim7_home_barrier ⟨fun _ => false, fun k => k == 2⟩ 24 30 2).1 (by decide),
   (claim7_home_barrier ⟨fun _ => false, fun k => k == 2⟩ 24 30 1).2 1
     (Nat.le_refl 1) (by decide)⟩

/-- C8: whenever the plugin invocation reports an error, whether the
discovery failed or the loader failed, the service document of the host
is exactly the pristine child: no partial merge is ever visible. -/
theorem claim8_failure_leaves_child_pristine (st : ServerlessState)
    (env : FsEnv) (loader : String → Except String JVal) (e : String)
    (h : (runPlugin st env loader).2 = some e) :
    (runPlugin st env loader).1 = st := by
  cases hp : getParentConfigurationRelativePath st.service env with
  | error e2 => simp [runPlugin, hp]
  | ok pth =>
    cases hl : loader pth with
    | error e2 => simp [runPlugin, hp, hl]
    | ok parent => simp [runPlugin, hp, hl] at h

/-- C8 witness: the scenario of the specification: no parent block, no
parent file within reach, home at level 3; the discovery error is
reported and the document is untouched. -/
theorem claim8_witness :
    (runPlugin ⟨jobj [("provider", jobj [("stage", .str "dev")])]⟩
        ⟨fun _ => false, fun k => k == 3⟩ (fun _ => .ok (jobj []))).1
      = ⟨jobj [("provider", jobj [("stage", .str "dev")])]⟩ :=
  claim8_failure_leaves_child_pristine _ _ _
    "Could not discover parent serverless.yml" rfl

/-- C9 (amended): the effective-configuration printer emits exactly the
whitelisted sections whose value is truthy and has at least one
enumerable key: nonempty mappings, nonempty sequences and nonempty
strings appear with their document value; absent sections, empty ones,
and scalar non-string values such as numbers or booleans (for which
Object.keys has no keys) are omitted. -/
theorem claim9_output_characterization (doc : JVal) (f : String) (v : JVal) :
    (f, v) ∈ printEffectiveConfig doc ↔
      (f ∈ fieldsToOutput ∧ jsField f doc = some v ∧ jsTruthy v = true ∧
        0 < jsKeyCount v) := by
  simp only [printEffectiveConfig, List.mem_filterMap]
  constructor
  · rintro ⟨a, ha, hf⟩
    cases hj : jsField a doc with
    | none =>
      rw [hj] at hf
      exact Option.noConfusion hf
    | some w =>
      rw [hj] at hf
      by_cases ht : (jsTruthy w && decide (0 < jsKeyCount w)) = true
      · simp only [ht, if_true, Option.some.injEq, Prod.mk.injEq] at hf
        obtain ⟨haf, hwv⟩ := hf
        subst haf
        subst hwv
        simp only [Bool.and_eq_true, decide_eq_true_eq] at ht
        exact ⟨ha, hj, ht.1, ht.2⟩
      · rw [Bool.not_eq_true] at ht
        simp only [ht, Bool.false_eq_true, if_false] at hf
        exact Option.noConfusion hf
  · rintro ⟨hmem, hj, ht, hk⟩
    refine ⟨f, hmem, ?_⟩
    rw [hj]
    simp [ht, hk]

/-- C9 counterexample: a present, nonempty section holding the scalar 5
under provider is omitted from the output, though the claim as stated
admits omission only of absent or empty sections. -/
theorem claim9_scalar_section_counterexample :
    ¬ specPrintClaimHolds (jobj [("provider", .num 5)]) := by
  intro h
  have h2 := (h "provider" (by decide)).mp ⟨.num 5, by decide, by decide⟩
  obtain ⟨v, hv⟩ := h2
  have he : printEffectiveConfig (jobj [("provider", .num 5)]) = [] := by decide
  rw [he] at hv
  exact List.not_mem_nil _ hv
